import Mathlib

/-!
Verification of the rasterization core of a Go drawing server.

The Go source implements six rasterizers over integer pixel coordinates:
a stepwise line algorithm (slope-intercept form), a DDA line algorithm,
Bresenham's line and circle algorithms, de Casteljau cubic Bezier
sampling, and Wu's antialiased line algorithm.

Modelling conventions:
* Go `int` is modelled by `ℤ` (coordinate magnitudes in the claims are far
  below any 64-bit overflow, so wrap-around is irrelevant here).
* Go `float64` arithmetic in the line rasterizers and in Wu's algorithm is
  modelled by exact rational arithmetic (`ℚ`); the quantities the claims
  talk about there (first/last pixels, alpha sums) are exact at integer
  inputs, so the rational model is faithful for them.
* The de Casteljau rasterizer's loop `for t := 0.0; t <= 1.0; t += 0.005`
  is genuinely sensitive to IEEE-754 binary64 rounding (the sample count
  depends on accumulated rounding error), so for it we build an exact
  model of binary64 round-to-nearest-even arithmetic (`FP` below).
* Unbounded `for` loops are modelled by fuel-indexed recursion; the fuel
  supplied in each top-level definition is proved (or, for the circle,
  argued by a fuel-stability lemma) to exceed the number of iterations
  the Go loop performs, so the model computes exactly what the loop does.
-/

/-- Go `math.Round`: round to nearest, halves away from zero. -/
def goRound (q : ℚ) : ℤ := if q < 0 then -⌊-q + 1/2⌋ else ⌊q + 1/2⌋

/-- The Go file's own helper `round(x) = int(math.Floor(x + 0.5))`:
round to nearest, halves toward positive infinity. -/
def goRoundHalfUp (q : ℚ) : ℤ := ⌊q + 1/2⌋

/-- Wu helper `ipart`: integer part via `math.Floor`. -/
def ipart (q : ℚ) : ℤ := ⌊q⌋

/-- Wu helper `fpart`: fractional part `x - math.Floor(x)`. -/
def fpart (q : ℚ) : ℚ := q - ⌊q⌋

/-- Wu helper `rfpart`: `1 - fpart x`. -/
def rfpart (q : ℚ) : ℚ := 1 - fpart q

lemma goRound_intCast (n : ℤ) : goRound (n : ℚ) = n := by
  unfold goRound
  have hhalf : ⌊(1/2 : ℚ)⌋ = 0 := by norm_num
  by_cases h : (n : ℚ) < 0
  · rw [if_pos h]
    have : -(n : ℚ) + 1/2 = ((-n : ℤ) : ℚ) + 1/2 := by push_cast; ring
    rw [this, Int.floor_int_add, hhalf]
    ring
  · rw [if_neg h, Int.floor_int_add, hhalf, add_zero]

lemma goRoundHalfUp_intCast (n : ℤ) : goRoundHalfUp (n : ℚ) = n := by
  unfold goRoundHalfUp
  have hhalf : ⌊(1/2 : ℚ)⌋ = 0 := by norm_num
  rw [Int.floor_int_add, hhalf, add_zero]

lemma fpart_intCast (n : ℤ) : fpart (n : ℚ) = 0 := by
  simp [fpart]

lemma rfpart_intCast (n : ℤ) : rfpart (n : ℚ) = 1 := by
  simp [rfpart, fpart_intCast]

lemma fpart_intCast_add_half (n : ℤ) : fpart ((n : ℚ) + 1/2) = 1/2 := by
  unfold fpart
  have hhalf : ⌊(1/2 : ℚ)⌋ = 0 := by norm_num
  rw [Int.floor_int_add, hhalf]
  push_cast
  ring

lemma getLast?_cons_ne_nil {α : Type} (a : α) {l : List α} (h : l ≠ []) :
    (a :: l).getLast? = l.getLast? := by
  cases l with
  | nil => exact absurd rfl h
  | cons b t => exact List.getLast?_cons_cons

/-- Go source, `stepByStep`: the slope-intercept line rasterizer.
Mirrors the three branches of the Go function: the vertical special case
(ascending scan between `min` and `max` of the y's), the shallow branch
stepping x from `x1` toward `x2`, and the steep branch stepping y. -/
def stepByStep (x1 y1 x2 y2 : ℤ) : List (ℤ × ℤ) :=
  if x2 - x1 = 0 then
    (List.range ((max y1 y2) - (min y1 y2)).toNat.succ).map
      (fun i : ℕ => (x1, min y1 y2 + (i : ℤ)))
  else
    let k : ℚ := ((y2 - y1 : ℤ) : ℚ) / ((x2 - x1 : ℤ) : ℚ)
    let b : ℚ := (y1 : ℚ) - k * (x1 : ℚ)
    if (y2 - y1).natAbs ≤ (x2 - x1).natAbs then
      (List.range (x2 - x1).natAbs.succ).map (fun i : ℕ =>
        let x : ℤ := x1 + (if x2 < x1 then -1 else 1) * (i : ℤ)
        (x, goRound (k * (x : ℚ) + b)))
    else
      (List.range (y2 - y1).natAbs.succ).map (fun i : ℕ =>
        let y : ℤ := y1 + (if y2 < y1 then -1 else 1) * (i : ℤ)
        (goRound (((y : ℚ) - b) / k), y))

/-- Go source, `dda`, inner loop: emit `round`ed current position, then add
the increments, `fuel` times. -/
def ddaLoop : ℕ → ℚ → ℚ → ℚ → ℚ → List (ℤ × ℤ)
  | 0, _, _, _, _ => []
  | Nat.succ n, x, y, xi, yi =>
      (goRound x, goRound y) :: ddaLoop n (x + xi) (y + yi) xi yi

/-- Go source, `dda`: `steps = max(|dx|, |dy|)`, increments `dx/steps` and
`dy/steps`, and `steps+1` emissions.  When `steps = 0` the Go division
yields NaN increments; in `ℚ` division by zero yields `0`.  Either way the
increments are only added after the single emission, so they never reach
the output (proved below for arbitrary increments). -/
def dda (x1 y1 x2 y2 : ℤ) : List (ℤ × ℤ) :=
  let n : ℕ := max (x2 - x1).natAbs (y2 - y1).natAbs
  ddaLoop (n + 1) (x1 : ℚ) (y1 : ℚ)
    (((x2 - x1 : ℤ) : ℚ) / (n : ℚ)) (((y2 - y1 : ℤ) : ℚ) / (n : ℚ))

lemma range_succ_map_head {α : Type} (f : ℕ → α) (n : ℕ) :
    ((List.range (n + 1)).map f).head? = some (f 0) := by
  rw [List.range_succ_eq_map]
  simp

lemma range_succ_map_getLast {α : Type} (f : ℕ → α) (n : ℕ) :
    ((List.range (n + 1)).map f).getLast? = some (f n) := by
  rw [List.range_succ, List.map_append]
  simp

lemma ddaLoop_getLast : ∀ (n : ℕ) (x y xi yi : ℚ),
    (ddaLoop (n + 1) x y xi yi).getLast? =
      some (goRound (x + n * xi), goRound (y + n * yi)) := by
  intro n
  induction n with
  | zero => intro x y xi yi; simp [ddaLoop]
  | succ m ih =>
      intro x y xi yi
      show ((goRound x, goRound y) :: ddaLoop (m + 1) (x + xi) (y + yi) xi yi).getLast?
        = some (goRound (x + (m + 1 : ℕ) * xi), goRound (y + (m + 1 : ℕ) * yi))
      rw [getLast?_cons_ne_nil _ (by simp [ddaLoop])]
      rw [ih (x + xi) (y + yi) xi yi]
      have hx : x + xi + (m : ℚ) * xi = x + ((m + 1 : ℕ) : ℚ) * xi := by
        push_cast; ring
      have hy : y + yi + (m : ℚ) * yi = y + ((m + 1 : ℕ) : ℚ) * yi := by
        push_cast; ring
      rw [hx, hy]

/-- Go source, `bresenhamLine`, inner `for` loop, indexed by fuel: emit the
current point, stop when it equals the endpoint, otherwise apply the error
update (`e2 = 2*err`; `err -= dy; x += sx` when `e2 > -dy`;
`err += dx; y += sy` when `e2 < dx`).  Running out of fuel returns the
points emitted so far; `bresLoop_master` below shows the supplied fuel is
never exhausted, so the model computes exactly what the Go loop does. -/
def bresLoop : ℕ → ℤ → ℤ → ℤ → ℤ → ℤ → ℤ → ℤ → ℤ → ℤ → List (ℤ × ℤ)
  | 0, _, _, _, _, _, _, _, _, _ => []
  | Nat.succ n, x, y, x2, y2, dx, dy, sx, sy, err =>
      (x, y) ::
        (if x = x2 ∧ y = y2 then []
         else
           bresLoop n (if 2 * err > -dy then x + sx else x)
             (if 2 * err < dx then y + sy else y) x2 y2 dx dy sx sy
             ((if 2 * err > -dy then err - dy else err) +
               (if 2 * err < dx then dx else 0)))

/-- Go source, `bresenhamLine`: `dx = |x2-x1|`, `dy = |y2-y1|`,
`sx/sy` step signs, initial error `dx - dy`. -/
def bresenhamLine (x1 y1 x2 y2 : ℤ) : List (ℤ × ℤ) :=
  bresLoop ((x2 - x1).natAbs + (y2 - y1).natAbs + 1) x1 y1 x2 y2
    ((x2 - x1).natAbs : ℤ) ((y2 - y1).natAbs : ℤ)
    (if x1 > x2 then -1 else 1) (if y1 > y2 then -1 else 1)
    (((x2 - x1).natAbs : ℤ) - ((y2 - y1).natAbs : ℤ))

/-- Master invariant for the Bresenham line loop.  After `a` x-steps and
`b` y-steps the position is `(x1 + sx*a, y1 + sy*b)` and the error is
`dx - dy - a*dy + b*dx`; from any such state with enough fuel the loop is
insensitive to extra fuel (it reaches its `break`) and its output ends at
the requested endpoint. -/
lemma bresLoop_master (x1 y1 sx sy : ℤ) (dx dy : ℕ)
    (hsx : sx = 1 ∨ sx = -1) (hsy : sy = 1 ∨ sy = -1) :
    ∀ (fuel : ℕ) (a b : ℕ), a ≤ dx → b ≤ dy → dx - a + (dy - b) < fuel →
      bresLoop fuel (x1 + sx * (a : ℤ)) (y1 + sy * (b : ℤ))
          (x1 + sx * (dx : ℤ)) (y1 + sy * (dy : ℤ)) (dx : ℤ) (dy : ℤ) sx sy
          ((dx : ℤ) - (dy : ℤ) - (a : ℤ) * (dy : ℤ) + (b : ℤ) * (dx : ℤ))
        = bresLoop (dx - a + (dy - b) + 1) (x1 + sx * (a : ℤ)) (y1 + sy * (b : ℤ))
            (x1 + sx * (dx : ℤ)) (y1 + sy * (dy : ℤ)) (dx : ℤ) (dy : ℤ) sx sy
            ((dx : ℤ) - (dy : ℤ) - (a : ℤ) * (dy : ℤ) + (b : ℤ) * (dx : ℤ))
      ∧ ∃ l, bresLoop fuel (x1 + sx * (a : ℤ)) (y1 + sy * (b : ℤ))
            (x1 + sx * (dx : ℤ)) (y1 + sy * (dy : ℤ)) (dx : ℤ) (dy : ℤ) sx sy
            ((dx : ℤ) - (dy : ℤ) - (a : ℤ) * (dy : ℤ) + (b : ℤ) * (dx : ℤ))
          = l ++ [(x1 + sx * (dx : ℤ), y1 + sy * (dy : ℤ))] := by
  intro fuel
  induction fuel using Nat.strong_induction_on with
  | _ fuel ih =>
    intro a b ha hb hf
    obtain ⟨n, rfl⟩ : ∃ n, fuel = n + 1 := ⟨fuel - 1, by omega⟩
    by_cases hend : a = dx ∧ b = dy
    · obtain ⟨rfl, rfl⟩ := hend
      refine ⟨by simp [bresLoop], ⟨[], by simp [bresLoop]⟩⟩
    · have hxiff : x1 + sx * (a : ℤ) = x1 + sx * (dx : ℤ) ↔ a = dx := by
        rcases hsx with h | h <;> subst h <;> omega
      have hyiff : y1 + sy * (b : ℤ) = y1 + sy * (dy : ℤ) ↔ b = dy := by
        rcases hsy with h | h <;> subst h <;> omega
      have hne : ¬(x1 + sx * (a : ℤ) = x1 + sx * (dx : ℤ) ∧
          y1 + sy * (b : ℤ) = y1 + sy * (dy : ℤ)) := by
        rw [hxiff, hyiff]; exact hend
      set E : ℤ := (dx : ℤ) - (dy : ℤ) - (a : ℤ) * (dy : ℤ) + (b : ℤ) * (dx : ℤ)
        with hEdef
      -- no x-overshoot: the x-advance test fails once a = dx
      have h1 : 2 * E > -(dy : ℤ) → a < dx := by
        intro hc
        rcases Nat.lt_or_ge a dx with h | h
        · exact h
        · exfalso
          have hadx : a = dx := le_antisymm ha h
          have hbdy : b < dy := by
            rcases Nat.lt_or_ge b dy with h' | h'
            · exact h'
            · exact absurd ⟨hadx, le_antisymm hb h'⟩ hend
          have hb' : (b : ℤ) * (dx : ℤ) ≤ ((dy : ℤ) - 1) * (dx : ℤ) := by
            have : (b : ℤ) ≤ (dy : ℤ) - 1 := by omega
            exact mul_le_mul_of_nonneg_right this (by positivity)
          have hdx : (a : ℤ) = (dx : ℤ) := by omega
          rw [hEdef, hdx] at hc
          nlinarith [hc, hb', hbdy]
      -- no y-overshoot: the y-advance test fails once b = dy
      have h2 : 2 * E < (dx : ℤ) → b < dy := by
        intro hc
        rcases Nat.lt_or_ge b dy with h | h
        · exact h
        · exfalso
          have hbdy : b = dy := le_antisymm hb h
          have hadx : a < dx := by
            rcases Nat.lt_or_ge a dx with h' | h'
            · exact h'
            · exact absurd ⟨le_antisymm ha h', hbdy⟩ hend
          have ha' : (a : ℤ) * (dy : ℤ) ≤ ((dx : ℤ) - 1) * (dy : ℤ) := by
            have : (a : ℤ) ≤ (dx : ℤ) - 1 := by omega
            exact mul_le_mul_of_nonneg_right this (by positivity)
          have hdy : (b : ℤ) = (dy : ℤ) := by omega
          rw [hEdef, hdy] at hc
          nlinarith [hc, ha', hadx]
      -- progress: at least one of the two advance tests holds
      have h3 : 2 * E > -(dy : ℤ) ∨ 2 * E < (dx : ℤ) := by
        by_contra hcon
        push_neg at hcon
        have hdd : (dx : ℤ) + (dy : ℤ) ≤ 0 := by omega
        have : dx = 0 ∧ dy = 0 := by omega
        exact hend ⟨by omega, by omega⟩
      set a' : ℕ := if 2 * E > -(dy : ℤ) then a + 1 else a with hadef
      set b' : ℕ := if 2 * E < (dx : ℤ) then b + 1 else b with hbdef
      have ha' : a' ≤ dx := by
        by_cases h : 2 * E > -(dy : ℤ)
        · have := h1 h; simp only [hadef, if_pos h]; omega
        · simp only [hadef, if_neg h]; exact ha
      have hb' : b' ≤ dy := by
        by_cases h : 2 * E < (dx : ℤ)
        · have := h2 h; simp only [hbdef, if_pos h]; omega
        · simp only [hbdef, if_neg h]; exact hb
      have hmeas : dx - a' + (dy - b') < dx - a + (dy - b) := by
        rcases h3 with h | h
        · have := h1 h
          by_cases h' : 2 * E < (dx : ℤ)
          · have := h2 h'
            simp only [hadef, hbdef, if_pos h, if_pos h']; omega
          · simp only [hadef, hbdef, if_pos h, if_neg h']; omega
        · have := h2 h
          by_cases h' : 2 * E > -(dy : ℤ)
          · have := h1 h'
            simp only [hadef, hbdef, if_pos h', if_pos h]; omega
          · simp only [hadef, hbdef, if_neg h', if_pos h]; omega
      have hx' : (if 2 * E > -(dy : ℤ) then x1 + sx * (a : ℤ) + sx else x1 + sx * (a : ℤ))
          = x1 + sx * (a' : ℤ) := by
        by_cases h : 2 * E > -(dy : ℤ) <;>
          simp only [hadef, if_pos, if_neg, h, ite_true, ite_false] <;> push_cast <;> ring
      have hy' : (if 2 * E < (dx : ℤ) then y1 + sy * (b : ℤ) + sy else y1 + sy * (b : ℤ))
          = y1 + sy * (b' : ℤ) := by
        by_cases h : 2 * E < (dx : ℤ) <;>
          simp only [hbdef, if_pos, if_neg, h, ite_true, ite_false] <;> push_cast <;> ring
      have herr' : (if 2 * E > -(dy : ℤ) then E - (dy : ℤ) else E) +
            (if 2 * E < (dx : ℤ) then (dx : ℤ) else 0)
          = (dx : ℤ) - (dy : ℤ) - (a' : ℤ) * (dy : ℤ) + (b' : ℤ) * (dx : ℤ) := by
        by_cases h : 2 * E > -(dy : ℤ) <;> by_cases h' : 2 * E < (dx : ℤ) <;>
          simp only [hadef, hbdef, hEdef, if_pos, if_neg, h, h', ite_true, ite_false] <;>
          push_cast <;> ring
      have hstep : ∀ m : ℕ,
          bresLoop (m + 1) (x1 + sx * (a : ℤ)) (y1 + sy * (b : ℤ))
              (x1 + sx * (dx : ℤ)) (y1 + sy * (dy : ℤ)) (dx : ℤ) (dy : ℤ) sx sy E
            = (x1 + sx * (a : ℤ), y1 + sy * (b : ℤ)) ::
              bresLoop m (x1 + sx * (a' : ℤ)) (y1 + sy * (b' : ℤ))
                (x1 + sx * (dx : ℤ)) (y1 + sy * (dy : ℤ)) (dx : ℤ) (dy : ℤ) sx sy
                ((dx : ℤ) - (dy : ℤ) - (a' : ℤ) * (dy : ℤ) + (b' : ℤ) * (dx : ℤ)) := by
        intro m
        simp only [bresLoop]
        rw [if_neg hne, hx', hy', herr']
      have hfn : dx - a' + (dy - b') < n := by omega
      have hfm : dx - a' + (dy - b') < dx - a + (dy - b) := hmeas
      have ihn := ih n (by omega) a' b' ha' hb' hfn
      have ihm := ih (dx - a + (dy - b)) (by omega) a' b' ha' hb' hfm
      constructor
      · rw [hstep n, hstep (dx - a + (dy - b))]
        rw [ihn.1, ihm.1]
      · obtain ⟨l, hl⟩ := ihn.2
        exact ⟨(x1 + sx * (a : ℤ), y1 + sy * (b : ℤ)) :: l, by rw [hstep n, hl]; rfl⟩

lemma bresenhamLine_x2_eq (x1 x2 : ℤ) :
    x1 + (if x1 > x2 then (-1 : ℤ) else 1) * ((x2 - x1).natAbs : ℤ) = x2 := by
  by_cases h : x1 > x2
  · rw [if_pos h]; omega
  · rw [if_neg h]; omega

lemma bresenhamLine_unfold (x1 y1 x2 y2 : ℤ) :
    ∀ (fuel : ℕ) (a b : ℕ),
      a ≤ (x2 - x1).natAbs → b ≤ (y2 - y1).natAbs →
      (x2 - x1).natAbs - a + ((y2 - y1).natAbs - b) < fuel →
      bresLoop fuel (x1 + (if x1 > x2 then (-1 : ℤ) else 1) * (a : ℤ))
          (y1 + (if y1 > y2 then (-1 : ℤ) else 1) * (b : ℤ)) x2 y2
          ((x2 - x1).natAbs : ℤ) ((y2 - y1).natAbs : ℤ)
          (if x1 > x2 then -1 else 1) (if y1 > y2 then -1 else 1)
          (((x2 - x1).natAbs : ℤ) - ((y2 - y1).natAbs : ℤ) -
            (a : ℤ) * ((y2 - y1).natAbs : ℤ) + (b : ℤ) * ((x2 - x1).natAbs : ℤ))
        = bresLoop ((x2 - x1).natAbs - a + ((y2 - y1).natAbs - b) + 1)
            (x1 + (if x1 > x2 then (-1 : ℤ) else 1) * (a : ℤ))
            (y1 + (if y1 > y2 then (-1 : ℤ) else 1) * (b : ℤ)) x2 y2
            ((x2 - x1).natAbs : ℤ) ((y2 - y1).natAbs : ℤ)
            (if x1 > x2 then -1 else 1) (if y1 > y2 then -1 else 1)
            (((x2 - x1).natAbs : ℤ) - ((y2 - y1).natAbs : ℤ) -
              (a : ℤ) * ((y2 - y1).natAbs : ℤ) + (b : ℤ) * ((x2 - x1).natAbs : ℤ))
      ∧ ∃ l, bresLoop fuel (x1 + (if x1 > x2 then (-1 : ℤ) else 1) * (a : ℤ))
            (y1 + (if y1 > y2 then (-1 : ℤ) else 1) * (b : ℤ)) x2 y2
            ((x2 - x1).natAbs : ℤ) ((y2 - y1).natAbs : ℤ)
            (if x1 > x2 then -1 else 1) (if y1 > y2 then -1 else 1)
            (((x2 - x1).natAbs : ℤ) - ((y2 - y1).natAbs : ℤ) -
              (a : ℤ) * ((y2 - y1).natAbs : ℤ) + (b : ℤ) * ((x2 - x1).natAbs : ℤ))
          = l ++ [(x2, y2)] := by
  have hm := bresLoop_master x1 y1 (if x1 > x2 then (-1 : ℤ) else 1)
    (if y1 > y2 then (-1 : ℤ) else 1) (x2 - x1).natAbs (y2 - y1).natAbs
    (by by_cases h : x1 > x2 <;> simp [h]) (by by_cases h : y1 > y2 <;> simp [h])
  rwa [bresenhamLine_x2_eq x1 x2, bresenhamLine_x2_eq y1 y2] at hm

/-- The Bresenham line output ends with the second endpoint. -/
lemma bresenhamLine_repr (x1 y1 x2 y2 : ℤ) :
    ∃ l, bresenhamLine x1 y1 x2 y2 = l ++ [(x2, y2)] := by
  have h := (bresenhamLine_unfold x1 y1 x2 y2
    ((x2 - x1).natAbs + (y2 - y1).natAbs + 1) 0 0
    (Nat.zero_le _) (Nat.zero_le _) (by omega)).2
  simpa [bresenhamLine] using h

/-- Any fuel beyond `|dx| + |dy|` computes the same list: the Go loop
reaches its `break` within `|dx| + |dy|` update steps. -/
lemma bresenhamLine_fuel_stable (x1 y1 x2 y2 : ℤ) (m : ℕ)
    (hm : (x2 - x1).natAbs + (y2 - y1).natAbs < m) :
    bresLoop m x1 y1 x2 y2 ((x2 - x1).natAbs : ℤ) ((y2 - y1).natAbs : ℤ)
        (if x1 > x2 then -1 else 1) (if y1 > y2 then -1 else 1)
        (((x2 - x1).natAbs : ℤ) - ((y2 - y1).natAbs : ℤ))
      = bresenhamLine x1 y1 x2 y2 := by
  have h1 := (bresenhamLine_unfold x1 y1 x2 y2 m 0 0
    (Nat.zero_le _) (Nat.zero_le _) (by omega)).1
  simp only [Nat.cast_zero, mul_zero, add_zero, zero_mul, sub_zero, Nat.sub_zero]
    at h1
  rw [h1]
  rfl

lemma bresenhamLine_head (x1 y1 x2 y2 : ℤ) :
    (bresenhamLine x1 y1 x2 y2).head? = some (x1, y1) := by
  simp [bresenhamLine, bresLoop]

lemma bresenhamLine_getLast (x1 y1 x2 y2 : ℤ) :
    (bresenhamLine x1 y1 x2 y2).getLast? = some (x2, y2) := by
  obtain ⟨l, hl⟩ := bresenhamLine_repr x1 y1 x2 y2
  rw [hl, List.getLast?_concat]

/-- Go source, `bresenhamCircle`, the `addPoints` closure: the 8 symmetric
reflections of `(x, y)` around the center `(xc, yc)`, in emission order. -/
def circleAddPoints (xc yc x y : ℤ) : List (ℤ × ℤ) :=
  [(xc + x, yc + y), (xc - x, yc + y), (xc + x, yc - y), (xc - x, yc - y),
   (xc + y, yc + x), (xc - y, yc + x), (xc + y, yc - x), (xc - y, yc - x)]

/-- Go source, `bresenhamCircle`, the `for y >= x` loop, indexed by fuel:
increment `x`; if `d > 0` decrement `y` and set `d += 4*(x-y) + 10` (with
the new `x`, `y`), else `d += 4*x + 6`; emit the 8 reflections of the new
state.  `circLoop_fuel_stable` shows the fuel supplied in
`bresenhamCircle` exceeds the number of iterations of the Go loop. -/
def circLoop : ℕ → ℤ → ℤ → ℤ → ℤ → ℤ → List (ℤ × ℤ)
  | 0, _, _, _, _, _ => []
  | Nat.succ n, xc, yc, x, y, d =>
      if y ≥ x then
        circleAddPoints xc yc (x + 1) (if d > 0 then y - 1 else y) ++
          circLoop n xc yc (x + 1) (if d > 0 then y - 1 else y)
            (if d > 0 then d + 4 * ((x + 1) - (y - 1)) + 10 else d + 4 * (x + 1) + 6)
      else []

/-- Go source, `bresenhamCircle`: start at `x = 0`, `y = r`, `d = 3 - 2r`,
emit the 8 reflections of the start state, then run the loop. -/
def bresenhamCircle (xc yc r : ℤ) : List (ℤ × ℤ) :=
  circleAddPoints xc yc 0 r ++ circLoop (r.toNat + 2) xc yc 0 r (3 - 2 * r)

/-- The circle loop is insensitive to fuel beyond `(y - x + 1).toNat`:
each iteration increments `x` and never increments `y`, so the guard
`y ≥ x` fails after at most `y - x + 1` iterations. -/
lemma circLoop_fuel_stable : ∀ (m n : ℕ) (xc yc x y d : ℤ),
    (y - x + 1).toNat < m → (y - x + 1).toNat < n →
    circLoop m xc yc x y d = circLoop n xc yc x y d := by
  intro m
  induction m using Nat.strong_induction_on with
  | _ m ih =>
    intro n xc yc x y d hm hn
    obtain ⟨m', rfl⟩ : ∃ m', m = m' + 1 := ⟨m - 1, by omega⟩
    obtain ⟨n', rfl⟩ : ∃ n', n = n' + 1 := ⟨n - 1, by omega⟩
    simp only [circLoop]
    by_cases hge : y ≥ x
    · rw [if_pos hge, if_pos hge]
      have hdec : ((if d > 0 then y - 1 else y) - (x + 1) + 1).toNat
          < (y - x + 1).toNat := by
        by_cases hd : d > 0 <;> simp only [if_pos, if_neg, hd, ite_true, ite_false] <;> omega
      congr 1
      exact ih m' (by omega) n' xc yc (x + 1) (if d > 0 then y - 1 else y) _
        (by omega) (by omega)
    · rw [if_neg hge, if_neg hge]

/-- Go source, `wuLine`: `steep := abs(y2-y1) > abs(x2-x1)`. -/
def wuSteep (x1 y1 x2 y2 : ℤ) : Bool := (x2 - x1).natAbs < (y2 - y1).natAbs

/-- Go source, `wuLine`, the two coordinate swaps: transpose both points
when steep, then swap the points so the first has the smaller abscissa.
Returns the two post-swap points. -/
def wuPts (x1 y1 x2 y2 : ℤ) : (ℤ × ℤ) × (ℤ × ℤ) :=
  let p1 := if wuSteep x1 y1 x2 y2 then (y1, x1) else (x1, y1)
  let p2 := if wuSteep x1 y1 x2 y2 then (y2, x2) else (x2, y2)
  if p2.1 < p1.1 then (p2, p1) else (p1, p2)

/-- Go source, `wuLine`: `gradient = dy/dx`, overridden to `1.0` when the
post-swap `dx` is zero. -/
def wuGradient (x1 y1 x2 y2 : ℤ) : ℚ :=
  let P := wuPts x1 y1 x2 y2
  if P.2.1 - P.1.1 = 0 then 1
  else ((P.2.2 - P.1.2 : ℤ) : ℚ) / ((P.2.1 - P.1.1 : ℤ) : ℚ)

/-- Go source, `wuLine`, main loop body: at each column emit the pixel pair
at `ipart intery` and `ipart intery + 1` with alphas `rfpart intery` and
`fpart intery` (transposed back when steep), then advance `intery` by the
gradient.  The Go loop runs for `x` from `xPixel1 + 1` up to
`xPixel2 - 1`; the iteration count is passed as `n`. -/
def wuLoop (steep : Bool) : ℕ → ℤ → ℚ → ℚ → List (ℤ × ℤ × ℚ)
  | 0, _, _, _ => []
  | Nat.succ n, x, intery, g =>
      (if steep then (ipart intery, x, rfpart intery)
       else (x, ipart intery, rfpart intery)) ::
      (if steep then (ipart intery + 1, x, fpart intery)
       else (x, ipart intery + 1, fpart intery)) ::
      wuLoop steep n (x + 1) (intery + g) g

/-- Go source, `wuLine`, the intermediate-step loop (`for x := xPixel1 + 1;
x < xPixel2; x++`), assembled from the same setup values the Go function
computes: `xPixel1 = round(x1)`, `xPixel2 = round(x2)`,
`intery = yEnd + gradient` with `yEnd = y1 + gradient*(round(x1) - x1)`
(post-swap coordinates). -/
def wuMainLoop (x1 y1 x2 y2 : ℤ) : List (ℤ × ℤ × ℚ) :=
  let P := wuPts x1 y1 x2 y2
  let g := wuGradient x1 y1 x2 y2
  let xPixel1 := goRoundHalfUp (P.1.1 : ℚ)
  let xPixel2 := goRoundHalfUp (P.2.1 : ℚ)
  let yEnd : ℚ := (P.1.2 : ℚ) + g * ((xPixel1 : ℚ) - (P.1.1 : ℚ))
  wuLoop (wuSteep x1 y1 x2 y2) (xPixel2 - xPixel1 - 1).toNat (xPixel1 + 1)
    (yEnd + g) g

/-- Go source, `wuLine`, endpoint handling: the pixel pair emitted for one
endpoint, at rows `ipart yE` and `ipart yE + 1`, weighted by the boundary
gap `gap` (transposed back when steep). -/
def wuEndpointPlot (steep : Bool) (px : ℤ) (yE : ℚ) (gap : ℚ) : List (ℤ × ℤ × ℚ) :=
  if steep then
    [(ipart yE, px, rfpart yE * gap), (ipart yE + 1, px, fpart yE * gap)]
  else
    [(px, ipart yE, rfpart yE * gap), (px, ipart yE + 1, fpart yE * gap)]

/-- Go source, `wuLine`: emission order is start-endpoint pair, then
end-endpoint pair, then the intermediate-step pairs.  The start gap is
`rfpart(x1 + 0.5)` and the end gap is `fpart(x2 + 0.5)` (post-swap). -/
def wuLine (x1 y1 x2 y2 : ℤ) : List (ℤ × ℤ × ℚ) :=
  let steep := wuSteep x1 y1 x2 y2
  let P := wuPts x1 y1 x2 y2
  let g := wuGradient x1 y1 x2 y2
  let xE1 := goRoundHalfUp (P.1.1 : ℚ)
  let yE1 : ℚ := (P.1.2 : ℚ) + g * ((xE1 : ℚ) - (P.1.1 : ℚ))
  let gap1 := rfpart ((P.1.1 : ℚ) + 1/2)
  let xE2 := goRoundHalfUp (P.2.1 : ℚ)
  let yE2 : ℚ := (P.2.2 : ℚ) + g * ((xE2 : ℚ) - (P.2.1 : ℚ))
  let gap2 := fpart ((P.2.1 : ℚ) + 1/2)
  wuEndpointPlot steep xE1 yE1 gap1 ++ wuEndpointPlot steep xE2 yE2 gap2 ++
    wuMainLoop x1 y1 x2 y2

/-- Consecutive pairs of samples have alphas summing to 1. -/
def alphaPairsSumOne : List (ℤ × ℤ × ℚ) → Prop
  | [] => True
  | [_] => True
  | p :: q :: rest => p.2.2 + q.2.2 = 1 ∧ alphaPairsSumOne rest

lemma wuLoop_pairs (steep : Bool) :
    ∀ (n : ℕ) (x : ℤ) (intery g : ℚ),
      alphaPairsSumOne (wuLoop steep n x intery g) := by
  intro n
  induction n with
  | zero => intro x intery g; simp [wuLoop, alphaPairsSumOne]
  | succ m ih =>
      intro x intery g
      have hsum :
          (if steep then (ipart intery, x, rfpart intery)
           else (x, ipart intery, rfpart intery)).2.2 +
          (if steep then (ipart intery + 1, x, fpart intery)
           else (x, ipart intery + 1, fpart intery)).2.2 = 1 := by
        cases steep <;> simp [rfpart]
      exact ⟨hsum, ih (x + 1) (intery + g) g⟩

lemma wuSteep_horiz (x1 x2 y : ℤ) : wuSteep x1 y x2 y = false := by
  simp [wuSteep]

lemma wuPts_horiz (x1 x2 y : ℤ) :
    wuPts x1 y x2 y = ((min x1 x2, y), (max x1 x2, y)) := by
  unfold wuPts
  rw [wuSteep_horiz]
  by_cases h : x2 < x1 <;> simp [h, min_def, max_def] <;> omega

lemma wuGradient_horiz (x1 x2 y : ℤ) (h : x1 ≠ x2) :
    wuGradient x1 y x2 y = 0 := by
  unfold wuGradient
  rw [wuPts_horiz]
  rw [if_neg (by simp; omega)]
  simp

lemma wuLoop_horiz (y : ℤ) : ∀ (n : ℕ) (x : ℤ),
    ∀ p ∈ wuLoop false n x ((y : ℤ) : ℚ) 0, p.2.1 = y → p.2.2 = 1 := by
  intro n
  induction n with
  | zero => intro x p hp; simp [wuLoop] at hp
  | succ m ih =>
      intro x p hp hrow
      simp only [wuLoop, Bool.false_eq_true, if_neg, ite_false, List.mem_cons] at hp
      rcases hp with h | h | h
      · subst h
        simp [rfpart, fpart_intCast]
      · subst h
        exfalso
        simp only [ipart, Int.floor_intCast] at hrow
        omega
      · have := ih (x + 1) p (by rwa [add_zero] at h) hrow
        exact this

lemma wuMainLoop_horiz (x1 x2 y : ℤ) :
    ∀ p ∈ wuMainLoop x1 y x2 y, p.2.1 = y → p.2.2 = 1 := by
  by_cases hx : x1 = x2
  · subst hx
    intro p hp
    exfalso
    unfold wuMainLoop at hp
    rw [wuPts_horiz] at hp
    simp only [min_self, max_self, goRoundHalfUp_intCast] at hp
    simp only [sub_self, zero_sub] at hp
    norm_num [wuLoop] at hp
  · intro p hp hrow
    unfold wuMainLoop at hp
    rw [wuPts_horiz, wuGradient_horiz x1 x2 y hx, wuSteep_horiz] at hp
    simp only [goRoundHalfUp_intCast, sub_self, mul_zero, add_zero] at hp
    exact wuLoop_horiz y _ _ p hp hrow

lemma wuLine_horiz_head (x1 x2 y : ℤ) :
    (wuLine x1 y x2 y).head? = some (min x1 x2, y, (1 : ℚ)/2) := by
  unfold wuLine
  rw [wuPts_horiz, wuSteep_horiz]
  simp only [goRoundHalfUp_intCast, sub_self, mul_zero, add_zero]
  simp only [wuEndpointPlot, Bool.false_eq_true, ite_false, List.cons_append,
    List.head?_cons]
  rw [ipart, Int.floor_intCast, rfpart_intCast, rfpart, fpart_intCast_add_half]
  norm_num

/-- On a horizontal request the Wu output is the two endpoint pixel pairs
followed by the main loop: the pixels `(min x1 x2, y)` and `(max x1 x2, y)`
on the main row carry alpha `1/2` each (the boundary gap weight
`rfpart(x + 0.5) = 1/2` of an integer endpoint, with `rfpart(yEnd) = 1`),
and their paired pixels on row `y + 1` carry alpha `0`. -/
lemma wuLine_horiz_eq (x1 x2 y : ℤ) :
    wuLine x1 y x2 y =
      (min x1 x2, y, (1 : ℚ)/2) :: (min x1 x2, y + 1, (0 : ℚ)) ::
        (max x1 x2, y, (1 : ℚ)/2) :: (max x1 x2, y + 1, (0 : ℚ)) ::
        wuMainLoop x1 y x2 y := by
  unfold wuLine
  rw [wuPts_horiz, wuSteep_horiz]
  simp only [goRoundHalfUp_intCast, sub_self, mul_zero, add_zero]
  simp only [wuEndpointPlot, Bool.false_eq_true, ite_false, List.cons_append,
    List.nil_append]
  rw [ipart, Int.floor_intCast]
  simp only [rfpart_intCast, fpart_intCast, rfpart, fpart_intCast_add_half]
  norm_num

/-- An IEEE-754 binary64 value, represented exactly as `m * 2^e` with
`|m| < 2^53`.  The de Casteljau loop's sample count depends on binary64
rounding, so its model must track it exactly; all values arising there are
normal (no underflow/overflow), so this scaled-integer representation with
round-to-nearest-even is an exact model of Go float64 arithmetic here. -/
structure FP where
  m : ℤ
  e : ℤ
deriving DecidableEq

/-- The exact rational value of a binary64 datum (for documentation; the
executable operations below work on the scaled integers directly). -/
def FP.val (a : FP) : ℚ :=
  if 0 ≤ a.e then (a.m : ℚ) * ((2 ^ a.e.toNat : ℕ) : ℚ)
  else (a.m : ℚ) / ((2 ^ (-a.e).toNat : ℕ) : ℚ)

/-- Number of halvings needed to bring `n` below `2^53` (fuel-bounded
structural recursion; magnitudes here need at most about 120 halvings,
so fuel 200 is ample). -/
def shiftAmount : ℕ → ℕ → ℕ
  | 0, _ => 0
  | Nat.succ fuel, n => if n < 2 ^ 53 then 0 else shiftAmount fuel (n / 2) + 1

/-- Round the exact value `M * 2^e` to 53 significant bits, ties to even:
IEEE-754 binary64 rounding in the normal range. -/
def fpRound (M : ℤ) (e : ℤ) : FP :=
  if M = 0 then ⟨0, 0⟩
  else
    if M.natAbs < 2 ^ 53 then ⟨M, e⟩
    else
      let s := shiftAmount 200 M.natAbs
      let q := M.natAbs / 2 ^ s
      let r := M.natAbs % 2 ^ s
      let q' := if 2 * r < 2 ^ s then q
                else if 2 ^ s < 2 * r then q + 1
                else if q % 2 = 0 then q else q + 1
      ⟨if M < 0 then -(q' : ℤ) else (q' : ℤ), e + s⟩

/-- Binary64 addition: align exponents exactly, then round. -/
def FP.add (a b : FP) : FP :=
  fpRound (a.m * 2 ^ (a.e - min a.e b.e).toNat + b.m * 2 ^ (b.e - min a.e b.e).toNat)
    (min a.e b.e)

/-- Binary64 subtraction (negation is exact). -/
def FP.sub (a b : FP) : FP := FP.add a ⟨-b.m, b.e⟩

/-- Binary64 multiplication: exact product, then round. -/
def FP.mul (a b : FP) : FP := fpRound (a.m * b.m) (a.e + b.e)

/-- Go `float64(n)` conversion of an integer. -/
def FP.ofInt (n : ℤ) : FP := fpRound n 0

/-- Binary64 comparison `a <= b` (exact comparison of the represented
values, via exponent alignment). -/
def FP.le (a b : FP) : Bool :=
  a.m * 2 ^ (a.e - min a.e b.e).toNat ≤ b.m * 2 ^ (b.e - min a.e b.e).toNat

/-- Go `int(math.Round(v))` applied to a binary64 value: round to nearest
integer, halves away from zero. -/
def FP.roundToInt (a : FP) : ℤ :=
  if 0 ≤ a.e then a.m * 2 ^ a.e.toNat
  else
    if a.m < 0 then -((2 * (-a.m) + 2 ^ (-a.e).toNat) / (2 * 2 ^ (-a.e).toNat))
    else (2 * a.m + 2 ^ (-a.e).toNat) / (2 * 2 ^ (-a.e).toNat)

/-- The binary64 value of the Go literal `0.005`
(`5764607523034235 * 2^-60`); `fp0005_nearest` checks it is the correctly
rounded value of `1/200`. -/
def fp0005 : FP := ⟨5764607523034235, -60⟩

/-- `fp0005` is a normalized 53-bit mantissa and is within half an ulp of
`1/200` (the inequality `2*|200*m - 2^60| ≤ 200` is exactly
`|m*2^-60 - 1/200| ≤ 2^-61`), so it is the binary64 nearest to `0.005`. -/
lemma fp0005_nearest :
    2 ^ 52 ≤ fp0005.m ∧ fp0005.m < 2 ^ 53 ∧
      2 * ((200 * fp0005.m - 2 ^ 60 : ℤ)).natAbs ≤ 200 := by
  decide

/-- Go source, the lerp pattern `p + (q - p)*t` of `deCasteljau`, in
binary64 (subtract, multiply, add, each correctly rounded). -/
def lerpFP (p q t : FP) : FP := FP.add p (FP.mul (FP.sub q p) t)

/-- Go source, `deCasteljau` loop body at parameter `t`: the three levels
of lerps `p + (q - p)*t` in binary64, each coordinate rounded to the
nearest integer at emission. -/
def casteljauPoint (p1x p1y p2x p2y p3x p3y p4x p4y t : FP) : ℤ × ℤ :=
  let q0x := lerpFP p1x p2x t
  let q0y := lerpFP p1y p2y t
  let q1x := lerpFP p2x p3x t
  let q1y := lerpFP p2y p3y t
  let q2x := lerpFP p3x p4x t
  let q2y := lerpFP p3y p4y t
  let r0x := lerpFP q0x q1x t
  let r0y := lerpFP q0y q1y t
  let r1x := lerpFP q1x q2x t
  let r1y := lerpFP q1y q2y t
  let bx := lerpFP r0x r1x t
  let bY := lerpFP r0y r1y t
  (bx.roundToInt, bY.roundToInt)

/-- Go source, `deCasteljau`, the loop
`for t := 0.0; t <= 1.0; t += step` indexed by fuel.  The guard, not the
fuel, ends the loop: `tSamples_fuel_stable` below shows fuel 202 and fuel
1000 produce the same parameter sequence. -/
def casteljauLoop (p1x p1y p2x p2y p3x p3y p4x p4y : FP) : ℕ → FP → List (ℤ × ℤ)
  | 0, _ => []
  | Nat.succ n, t =>
      if FP.le t ⟨1, 0⟩ then
        casteljauPoint p1x p1y p2x p2y p3x p3y p4x p4y t ::
          casteljauLoop p1x p1y p2x p2y p3x p3y p4x p4y n (FP.add t fp0005)
      else []

/-- Go source, `deCasteljau`: binary64 control points, `t` starting at
`0.0`, accumulated by `+= 0.005`. -/
def deCasteljau (x1 y1 x2 y2 x3 y3 x4 y4 : ℤ) : List (ℤ × ℤ) :=
  casteljauLoop (FP.ofInt x1) (FP.ofInt y1) (FP.ofInt x2) (FP.ofInt y2)
    (FP.ofInt x3) (FP.ofInt y3) (FP.ofInt x4) (FP.ofInt y4) 202 ⟨0, 0⟩

/-- The sequence of parameter values the loop visits: it depends only on
the guard and the step, not on the control points. -/
def tSamples : ℕ → FP → List FP
  | 0, _ => []
  | Nat.succ n, t => if FP.le t ⟨1, 0⟩ then t :: tSamples n (FP.add t fp0005) else []

lemma casteljauLoop_eq_map (p1x p1y p2x p2y p3x p3y p4x p4y : FP) :
    ∀ (fuel : ℕ) (t : FP),
      casteljauLoop p1x p1y p2x p2y p3x p3y p4x p4y fuel t
        = (tSamples fuel t).map (casteljauPoint p1x p1y p2x p2y p3x p3y p4x p4y) := by
  intro fuel
  induction fuel with
  | zero => intro t; rfl
  | succ n ih =>
      intro t
      show (if FP.le t ⟨1, 0⟩ then _ else []) = List.map _ (if FP.le t ⟨1, 0⟩ then _ else [])
      by_cases h : FP.le t ⟨1, 0⟩
      · rw [if_pos h, if_pos h, List.map_cons, ih]
      · rw [if_neg h, if_neg h, List.map_nil]

set_option maxRecDepth 40000

/-- The Go loop's guard fails at the 201st check (the accumulated `t`
exceeds `1.0` after 200 additions of binary64 `0.005`), so any fuel from
202 up yields the same 200 parameter values. -/
lemma tSamples_fuel_stable : tSamples 1000 ⟨0, 0⟩ = tSamples 202 ⟨0, 0⟩ := by decide

lemma tSamples_length : (tSamples 202 ⟨0, 0⟩).length = 200 := by decide

/-- Every run of the de Casteljau rasterizer emits exactly 200 samples. -/
lemma deCasteljau_length (x1 y1 x2 y2 x3 y3 x4 y4 : ℤ) :
    (deCasteljau x1 y1 x2 y2 x3 y3 x4 y4).length = 200 := by
  unfold deCasteljau
  rw [casteljauLoop_eq_map, List.length_map, tSamples_length]

lemma step_dest (x1 x2 : ℤ) :
    x1 + (if x2 < x1 then (-1 : ℤ) else 1) * ((x2 - x1).natAbs : ℤ) = x2 := by
  by_cases h : x2 < x1
  · rw [if_pos h]; omega
  · rw [if_neg h]; omega

lemma stepByStep_vert_head (x1 y1 y2 : ℤ) :
    (stepByStep x1 y1 x1 y2).head? = some (x1, min y1 y2) := by
  unfold stepByStep
  rw [if_pos (sub_self x1)]
  rw [Nat.succ_eq_add_one, range_succ_map_head]
  norm_num

lemma stepByStep_vert_getLast (x1 y1 y2 : ℤ) :
    (stepByStep x1 y1 x1 y2).getLast? = some (x1, max y1 y2) := by
  unfold stepByStep
  rw [if_pos (sub_self x1)]
  rw [Nat.succ_eq_add_one, range_succ_map_getLast]
  have : min y1 y2 + ((max y1 y2 - min y1 y2).toNat : ℤ) = max y1 y2 := by omega
  rw [this]

lemma stepByStep_nonvert (x1 y1 x2 y2 : ℤ) (h : x2 - x1 ≠ 0) :
    (stepByStep x1 y1 x2 y2).head? = some (x1, y1) ∧
      (stepByStep x1 y1 x2 y2).getLast? = some (x2, y2) := by
  have hdx : ((x2 - x1 : ℤ) : ℚ) ≠ 0 := Int.cast_ne_zero.mpr h
  unfold stepByStep
  rw [if_neg h]
  by_cases hcmp : (y2 - y1).natAbs ≤ (x2 - x1).natAbs
  · rw [if_pos hcmp]
    have hval : ∀ x : ℤ,
        ((y2 - y1 : ℤ) : ℚ) / ((x2 - x1 : ℤ) : ℚ) * (x : ℚ) +
          ((y1 : ℚ) - ((y2 - y1 : ℤ) : ℚ) / ((x2 - x1 : ℤ) : ℚ) * (x1 : ℚ))
        = (y1 : ℚ) + ((y2 - y1 : ℤ) : ℚ) * (((x : ℚ) - (x1 : ℚ)) / ((x2 - x1 : ℤ) : ℚ)) := by
      intro x
      field_simp
      ring
    constructor
    · rw [Nat.succ_eq_add_one, range_succ_map_head]
      show some (x1 + _ * ((0 : ℕ) : ℤ), goRound _) = _
      simp only [Nat.cast_zero, mul_zero, add_zero]
      rw [hval x1, sub_self, zero_div, mul_zero, add_zero, goRound_intCast]
    · rw [Nat.succ_eq_add_one, range_succ_map_getLast]
      show some (x1 + _ * _, goRound _) = _
      rw [step_dest x1 x2, hval x2]
      have hfrac : ((x2 : ℚ) - (x1 : ℚ)) / ((x2 - x1 : ℤ) : ℚ) = 1 := by
        rw [div_eq_one_iff_eq hdx]
        push_cast
        ring
      rw [hfrac, mul_one]
      have hy2 : (y1 : ℚ) + ((y2 - y1 : ℤ) : ℚ) = ((y2 : ℤ) : ℚ) := by
        push_cast
        ring
      rw [hy2, goRound_intCast]
  · rw [if_neg hcmp]
    have hdy : y2 - y1 ≠ 0 := by
      intro hzero
      rw [hzero] at hcmp
      simp at hcmp
    have hdyq : ((y2 - y1 : ℤ) : ℚ) ≠ 0 := Int.cast_ne_zero.mpr hdy
    have hval : ∀ y : ℤ,
        ((y : ℚ) - ((y1 : ℚ) - ((y2 - y1 : ℤ) : ℚ) / ((x2 - x1 : ℤ) : ℚ) * (x1 : ℚ))) /
            (((y2 - y1 : ℤ) : ℚ) / ((x2 - x1 : ℤ) : ℚ))
        = (x1 : ℚ) + ((x2 - x1 : ℤ) : ℚ) * (((y : ℚ) - (y1 : ℚ)) / ((y2 - y1 : ℤ) : ℚ)) := by
      intro y
      have h1 : ((x2 : ℚ) - (x1 : ℚ)) ≠ 0 := by
        intro hh
        apply h
        have hx : (x2 : ℚ) = (x1 : ℚ) := by linarith
        have hx2 : x2 = x1 := by exact_mod_cast hx
        omega
      have h2 : ((y2 : ℚ) - (y1 : ℚ)) ≠ 0 := by
        intro hh
        apply hdy
        have hy : (y2 : ℚ) = (y1 : ℚ) := by linarith
        have hy2 : y2 = y1 := by exact_mod_cast hy
        omega
      push_cast
      field_simp
      ring
    constructor
    · rw [Nat.succ_eq_add_one, range_succ_map_head]
      show some (goRound _, y1 + _ * ((0 : ℕ) : ℤ)) = _
      simp only [Nat.cast_zero, mul_zero, add_zero]
      rw [hval y1, sub_self, zero_div, mul_zero, add_zero, goRound_intCast]
    · rw [Nat.succ_eq_add_one, range_succ_map_getLast]
      show some (goRound _, y1 + _ * _) = _
      rw [step_dest y1 y2, hval y2]
      have hfrac : ((y2 : ℚ) - (y1 : ℚ)) / ((y2 - y1 : ℤ) : ℚ) = 1 := by
        rw [div_eq_one_iff_eq hdyq]
        push_cast
        ring
      rw [hfrac, mul_one]
      have hx2 : (x1 : ℚ) + ((x2 - x1 : ℤ) : ℚ) = ((x2 : ℤ) : ℚ) := by
        push_cast
        ring
      rw [hx2, goRound_intCast]

lemma dda_head (x1 y1 x2 y2 : ℤ) : (dda x1 y1 x2 y2).head? = some (x1, y1) := by
  unfold dda
  show ((goRound (x1 : ℚ), goRound (y1 : ℚ)) :: _).head? = _
  rw [List.head?_cons, goRound_intCast, goRound_intCast]

lemma dda_getLast (x1 y1 x2 y2 : ℤ) :
    (dda x1 y1 x2 y2).getLast? = some (x2, y2) := by
  unfold dda
  rw [ddaLoop_getLast]
  by_cases hn : max (x2 - x1).natAbs (y2 - y1).natAbs = 0
  · have hx : x2 = x1 := by omega
    have hy : y2 = y1 := by omega
    rw [hn]
    subst hx; subst hy
    norm_num [goRound_intCast]
  · have hq : ((max (x2 - x1).natAbs (y2 - y1).natAbs : ℕ) : ℚ) ≠ 0 := by
      exact_mod_cast hn
    have hvx : (x1 : ℚ) + ((max (x2 - x1).natAbs (y2 - y1).natAbs : ℕ) : ℚ) *
        (((x2 - x1 : ℤ) : ℚ) / ((max (x2 - x1).natAbs (y2 - y1).natAbs : ℕ) : ℚ))
        = ((x2 : ℤ) : ℚ) := by
      rw [mul_comm, div_mul_cancel₀ _ hq]
      push_cast; ring
    have hvy : (y1 : ℚ) + ((max (x2 - x1).natAbs (y2 - y1).natAbs : ℕ) : ℚ) *
        (((y2 - y1 : ℤ) : ℚ) / ((max (x2 - x1).natAbs (y2 - y1).natAbs : ℕ) : ℚ))
        = ((y2 : ℤ) : ℚ) := by
      rw [mul_comm, div_mul_cancel₀ _ hq]
      push_cast; ring
    rw [hvx, hvy, goRound_intCast, goRound_intCast]

/-- Claim C1, counterexample: for radius 0 and center `(0,0)` the circle
rasterizer emits the point `(1,-1)` (the loop body runs once before the
guard `y >= x` fails), which is not the center: the claim that every
emitted point equals the center is false on the code. -/
theorem bresenhamCircle_r0_offcenter_point :
    ((1 : ℤ), (-1 : ℤ)) ∈ bresenhamCircle 0 0 0 ∧
      ((1 : ℤ), (-1 : ℤ)) ≠ ((0 : ℤ), (0 : ℤ)) := by decide

/-- Claim C1 (amended): for radius 0 the emitted sequence is the 8 initial
reflections, which all collapse to the center, followed by the 8
reflections of the state `(x,y) = (1,-1)` reached by the single loop
iteration: the four diagonal neighbours of the center, each twice. -/
theorem bresenhamCircle_r0 (xc yc : ℤ) :
    bresenhamCircle xc yc 0 =
      List.replicate 8 (xc, yc) ++
        [(xc + 1, yc - 1), (xc - 1, yc - 1), (xc + 1, yc + 1), (xc - 1, yc + 1),
         (xc - 1, yc + 1), (xc + 1, yc + 1), (xc - 1, yc - 1), (xc + 1, yc - 1)] := by
  show circleAddPoints xc yc 0 0 ++
      circLoop ((0 : ℤ).toNat + 2) xc yc 0 0 (3 - 2 * 0) = _
  norm_num [circleAddPoints, circLoop, List.replicate, sub_eq_add_neg]

/-- Claim C2, counterexample: for the stepwise rasterizer on the vertical
request `(0,2) -> (0,0)` the first emitted pixel is `(0,0)`, which is not
within distance 1 per coordinate of the first endpoint `(0,2)`: the
claimed first/last order is violated by the ascending vertical scan. -/
theorem stepByStep_first_pixel_not_near_start :
    (stepByStep 0 2 0 0).head? = some ((0 : ℤ), (0 : ℤ)) ∧
      ¬(((0 : ℤ) - 0).natAbs ≤ 1 ∧ ((0 : ℤ) - 2).natAbs ≤ 1) := by decide

/-- Claim C2 (amended): the first and last emitted pixels of the stepwise,
DDA and Bresenham line rasterizers are exactly the two request endpoints
(so in particular within the claimed tolerance of 1), in request order —
except that the stepwise rasterizer on a vertical request with `y2 < y1`
emits the endpoints in swapped order (its vertical scan is always
ascending). -/
theorem raster_first_last_pixels (x1 y1 x2 y2 : ℤ) :
    ((x1 = x2 ∧ y2 < y1) →
      (stepByStep x1 y1 x2 y2).head? = some (x2, y2) ∧
        (stepByStep x1 y1 x2 y2).getLast? = some (x1, y1)) ∧
    (¬(x1 = x2 ∧ y2 < y1) →
      (stepByStep x1 y1 x2 y2).head? = some (x1, y1) ∧
        (stepByStep x1 y1 x2 y2).getLast? = some (x2, y2)) ∧
    (dda x1 y1 x2 y2).head? = some (x1, y1) ∧
    (dda x1 y1 x2 y2).getLast? = some (x2, y2) ∧
    (bresenhamLine x1 y1 x2 y2).head? = some (x1, y1) ∧
    (bresenhamLine x1 y1 x2 y2).getLast? = some (x2, y2) := by
  refine ⟨?_, ?_, dda_head x1 y1 x2 y2, dda_getLast x1 y1 x2 y2,
    bresenhamLine_head x1 y1 x2 y2, bresenhamLine_getLast x1 y1 x2 y2⟩
  · rintro ⟨rfl, hy⟩
    constructor
    · rw [stepByStep_vert_head, min_eq_right (le_of_lt hy)]
    · rw [stepByStep_vert_getLast, max_eq_left (le_of_lt hy)]
  · intro hn
    by_cases hx : x1 = x2
    · subst hx
      have hy : y1 ≤ y2 := by
        rcases Int.lt_or_le y2 y1 with h | h
        · exact absurd ⟨rfl, h⟩ hn
        · exact h
      constructor
      · rw [stepByStep_vert_head, min_eq_left hy]
      · rw [stepByStep_vert_getLast, max_eq_right hy]
    · exact stepByStep_nonvert x1 y1 x2 y2 (by omega)

/-- Claim C2, witness: the amended statement at the vertical descending
request `(0,2)-(0,0)` (endpoints swapped) and at the generic request
`(0,0)-(3,2)` (endpoints in order). -/
theorem raster_first_last_pixels_witness :
    ((stepByStep 0 2 0 0).head? = some ((0 : ℤ), (0 : ℤ)) ∧
      (stepByStep 0 2 0 0).getLast? = some ((0 : ℤ), (2 : ℤ))) ∧
    ((stepByStep 0 0 3 2).head? = some ((0 : ℤ), (0 : ℤ)) ∧
      (stepByStep 0 0 3 2).getLast? = some ((3 : ℤ), (2 : ℤ))) :=
  ⟨(raster_first_last_pixels 0 2 0 0).1 ⟨rfl, by norm_num⟩,
   (raster_first_last_pixels 0 0 3 2).2.1 (by norm_num)⟩

/-- Claim C3 (confirmed): in every run of Wu's rasterizer, the pixel pairs
emitted at the intermediate steps (the loop strictly between the endpoint
pixels) carry alphas `rfpart intery` and `fpart intery`, which sum to
exactly 1 (exact rational model of the float arithmetic; the claimed 1e-9
tolerance is subsumed). -/
theorem wuLine_intermediate_alpha_pairs (x1 y1 x2 y2 : ℤ) :
    alphaPairsSumOne (wuMainLoop x1 y1 x2 y2) := by
  unfold wuMainLoop
  exact wuLoop_pairs _ _ _ _ _

/-- Claim C4 (confirmed): for a degenerate request (`x1 = x2`, `y1 = y2`)
the DDA rasterizer emits exactly the single point `(x1, y1)`; moreover the
single emission is independent of the increment values, so the
zero-divisor increments (`NaN` in Go, `0` in the rational model) never
affect any emitted coordinate. -/
theorem dda_degenerate (x1 y1 x2 y2 : ℤ) (h1 : x1 = x2) (h2 : y1 = y2) :
    dda x1 y1 x2 y2 = [(x1, y1)] ∧
      ∀ xi yi : ℚ, ddaLoop 1 (x1 : ℚ) (y1 : ℚ) xi yi = [(x1, y1)] := by
  subst h1
  subst h2
  constructor
  · unfold dda
    norm_num [ddaLoop, goRound_intCast]
  · intro xi yi
    show [(goRound (x1 : ℚ), goRound (y1 : ℚ))] = _
    rw [goRound_intCast, goRound_intCast]

/-- Claim C4, witness: the degenerate DDA request `(5,7)-(5,7)`, and the
single emission with arbitrary concrete increments `3`, `4`. -/
theorem dda_degenerate_witness :
    dda 5 7 5 7 = [((5 : ℤ), (7 : ℤ))] ∧
      ddaLoop 1 ((5 : ℤ) : ℚ) ((7 : ℤ) : ℚ) 3 4 = [((5 : ℤ), (7 : ℤ))] :=
  ⟨(dda_degenerate 5 7 5 7 rfl rfl).1, (dda_degenerate 5 7 5 7 rfl rfl).2 3 4⟩

/-- Claim C5 (confirmed): the Bresenham line loop reaches its `break` for
every pair of integer endpoints — any fuel beyond `|dx| + |dy|` computes
the same output, so the unbounded Go loop terminates — and in the
degenerate case `dx = dy = 0` the output is the single point `(x1, y1)`. -/
theorem bresenhamLine_terminates (x1 y1 x2 y2 : ℤ) :
    (∀ m : ℕ, (x2 - x1).natAbs + (y2 - y1).natAbs < m →
      bresLoop m x1 y1 x2 y2 ((x2 - x1).natAbs : ℤ) ((y2 - y1).natAbs : ℤ)
          (if x1 > x2 then -1 else 1) (if y1 > y2 then -1 else 1)
          (((x2 - x1).natAbs : ℤ) - ((y2 - y1).natAbs : ℤ))
        = bresenhamLine x1 y1 x2 y2) ∧
    (x1 = x2 → y1 = y2 → bresenhamLine x1 y1 x2 y2 = [(x1, y1)]) := by
  constructor
  · intro m hm
    exact bresenhamLine_fuel_stable x1 y1 x2 y2 m hm
  · intro h1 h2
    subst h1
    subst h2
    norm_num [bresenhamLine, bresLoop]

/-- Claim C5, witness: the degenerate request `(0,0)-(0,0)` emits the
single point, and fuel 5 computes the same list as the model's fuel. -/
theorem bresenhamLine_terminates_witness :
    bresLoop 5 0 0 0 0 (((0 : ℤ) - 0).natAbs : ℤ) (((0 : ℤ) - 0).natAbs : ℤ)
        (if (0 : ℤ) > 0 then -1 else 1) (if (0 : ℤ) > 0 then -1 else 1)
        ((((0 : ℤ) - 0).natAbs : ℤ) - (((0 : ℤ) - 0).natAbs : ℤ))
      = bresenhamLine 0 0 0 0 ∧
    bresenhamLine 0 0 0 0 = [((0 : ℤ), (0 : ℤ))] :=
  ⟨(bresenhamLine_terminates 0 0 0 0).1 5 (by norm_num),
   (bresenhamLine_terminates 0 0 0 0).2 rfl rfl⟩

/-- Claim C6, counterexample: Bresenham from `(0,0)` to `(2,1)` visits
`(1,0)`, but the reverse run from `(2,1)` to `(0,0)` does not (it visits
`(1,1)` instead): the two directions do not produce the same unordered
point set. -/
theorem bresenhamLine_not_symmetric :
    ((1 : ℤ), (0 : ℤ)) ∈ bresenhamLine 0 0 2 1 ∧
      ((1 : ℤ), (0 : ℤ)) ∉ bresenhamLine 2 1 0 0 := by decide

/-- Claim C6 (amended): the two directions agree on the endpoint pixels —
each run starts at its own first endpoint and ends at its own second, so
both runs contain both `A` and `B` — but the interior point sets may
differ (diagonal tie choices), as the counterexample shows. -/
theorem bresenhamLine_reverse_endpoints (x1 y1 x2 y2 : ℤ) :
    (x1, y1) ∈ bresenhamLine x1 y1 x2 y2 ∧
    (x2, y2) ∈ bresenhamLine x1 y1 x2 y2 ∧
    (x2, y2) ∈ bresenhamLine x2 y2 x1 y1 ∧
    (x1, y1) ∈ bresenhamLine x2 y2 x1 y1 := by
  refine ⟨List.mem_of_mem_head? (by rw [bresenhamLine_head]; rfl), ?_,
    List.mem_of_mem_head? (by rw [bresenhamLine_head]; rfl), ?_⟩
  · obtain ⟨l, hl⟩ := bresenhamLine_repr x1 y1 x2 y2
    rw [hl]
    simp
  · obtain ⟨l, hl⟩ := bresenhamLine_repr x2 y2 x1 y1
    rw [hl]
    simp

/-- Claim C7 (the code diverges from it): the de Casteljau rasterizer
emits exactly 200 samples, not the claimed 201: the accumulated binary64
`t` exceeds `1.0` after 200 additions of `float64(0.005)` (the exact sum
is `4503599627370499 * 2^-52 > 1`), so the guard `t <= 1.0` fails at the
201st check and the `t = 1.0` sample — the fourth control point — is
never emitted.  Shown here at the concrete request
`(0,0),(100,0),(100,100),(200,200)`; `deCasteljau_length` shows the count
is 200 for every input. -/
theorem deCasteljau_emits_200_samples :
    (deCasteljau 0 0 100 0 100 100 200 200).length = 200 ∧ (200 : ℕ) ≠ 201 :=
  ⟨deCasteljau_length 0 0 100 0 100 100 200 200, by norm_num⟩

/-- Claim C9 (confirmed): with all four control points equal to `(10,10)`
the de Casteljau rasterizer runs to completion (it is a total function)
and every one of its 200 emitted samples equals `(10,10)`. -/
theorem deCasteljau_degenerate_all_samples_center :
    deCasteljau 10 10 10 10 10 10 10 10 = List.replicate 200 ((10 : ℤ), (10 : ℤ)) := by
  decide

/-- Claim C10 (confirmed): for a negative radius the guard `y >= x` fails
immediately (`y = r < 0 = x`), so the loop is never entered and the
output is exactly the 8 initial reflections of `(0, r)` around the
center: points of the form `(xc, yc ± r)` and `(xc ± r, yc)`. -/
theorem bresenhamCircle_neg_radius (xc yc r : ℤ) (h : r < 0) :
    bresenhamCircle xc yc r =
      [(xc, yc + r), (xc, yc + r), (xc, yc - r), (xc, yc - r),
       (xc + r, yc), (xc - r, yc), (xc + r, yc), (xc - r, yc)] := by
  unfold bresenhamCircle
  have hfuel : r.toNat + 2 = 2 := by omega
  rw [hfuel]
  show circleAddPoints xc yc 0 r ++
      (if r ≥ 0 then _ else []) = _
  rw [if_neg (by omega)]
  norm_num [circleAddPoints, sub_eq_add_neg]

/-- Claim C10, witness: center `(0,0)`, radius `-3`. -/
theorem bresenhamCircle_neg_radius_witness :
    bresenhamCircle 0 0 (-3) =
      [((0 : ℤ), (-3 : ℤ)), (0, -3), (0, 3), (0, 3),
       (-3, 0), (3, 0), (-3, 0), (3, 0)] := by
  have h := bresenhamCircle_neg_radius 0 0 (-3) (by norm_num)
  norm_num at h
  exact h

lemma wuSteep_0020 : wuSteep 0 0 2 0 = false := by decide

lemma wuPts_0020 : wuPts 0 0 2 0 = ((0, 0), (2, 0)) := by decide

lemma wuGradient_0020 : wuGradient 0 0 2 0 = 0 := by
  unfold wuGradient
  rw [wuPts_0020]
  norm_num

/-- The intermediate-step pixels of the horizontal Wu request
`(0,0)-(2,0)`: the single interior column emits `(1,0)` with alpha 1 and
`(1,1)` with alpha 0. -/
lemma wuMainLoop_0020 :
    wuMainLoop 0 0 2 0 = [((1 : ℤ), (0 : ℤ), (1 : ℚ)), ((1 : ℤ), (1 : ℤ), (0 : ℚ))] := by
  unfold wuMainLoop
  rw [wuPts_0020, wuGradient_0020, wuSteep_0020]
  norm_num [goRoundHalfUp, wuLoop, ipart, fpart, rfpart]

/-- Claim C8, counterexample: on the horizontal request `(0,0)-(2,0)` the
first emitted pixel is `(0, 0)` — on the main row `y = 0` — with alpha
`1/2`, not `1.0`: the endpoint pixels carry the boundary gap weight
`rfpart(x + 0.5) = 1/2`, so not every main-row pixel has alpha 1. -/
theorem wuLine_horizontal_endpoint_alpha_half :
    (wuLine 0 0 2 0).head? = some ((0 : ℤ), (0 : ℤ), (1 : ℚ)/2) ∧
      ((1 : ℚ)/2 ≠ 1) := by
  constructor
  · have h := wuLine_horiz_head 0 2 0
    norm_num at h
    exact h
  · norm_num

/-- Claim C8 (amended): on a horizontal request (`y1 = y2 = y`) every
pixel emitted at an intermediate step (the main loop, strictly between
the endpoint pixels) on the main row `y` has alpha exactly 1; the two
endpoint pixels on the main row instead carry alpha `1/2` each, the
boundary gap weight `rfpart(x + 0.5) = 1/2` of an integer endpoint.  The
second conjunct pins down the whole endpoint prefix of the output: both
main-row endpoint pixels with alpha `1/2`, and their row-`(y+1)` partners
with alpha `0`. -/
theorem wuLine_horizontal_main_row (x1 x2 y : ℤ) :
    (∀ p ∈ wuMainLoop x1 y x2 y, p.2.1 = y → p.2.2 = 1) ∧
      wuLine x1 y x2 y =
        (min x1 x2, y, (1 : ℚ)/2) :: (min x1 x2, y + 1, (0 : ℚ)) ::
          (max x1 x2, y, (1 : ℚ)/2) :: (max x1 x2, y + 1, (0 : ℚ)) ::
          wuMainLoop x1 y x2 y :=
  ⟨wuMainLoop_horiz x1 x2 y, wuLine_horiz_eq x1 x2 y⟩

/-- Claim C8, witness: on the request `(0,0)-(2,0)` the interior pixel
`(1,0)` (on the main row) has alpha 1, and the output starts with the
endpoint pixels `(0,0)` and `(2,0)` at alpha `1/2` (their row-1 partners
at alpha `0`). -/
theorem wuLine_horizontal_main_row_witness :
    ((1 : ℤ), (0 : ℤ), (1 : ℚ)).2.2 = 1 ∧
      wuLine 0 0 2 0 =
        (min (0 : ℤ) 2, 0, (1 : ℚ)/2) :: (min (0 : ℤ) 2, 0 + 1, (0 : ℚ)) ::
          (max (0 : ℤ) 2, 0, (1 : ℚ)/2) :: (max (0 : ℤ) 2, 0 + 1, (0 : ℚ)) ::
          wuMainLoop 0 0 2 0 :=
  ⟨(wuLine_horizontal_main_row 0 2 0).1 ((1 : ℤ), (0 : ℤ), (1 : ℚ))
      (by rw [wuMainLoop_0020]; exact List.mem_cons_self _ _) rfl,
   (wuLine_horizontal_main_row 0 2 0).2⟩
